import Mathlib

/-!
Verification of the hamsando dynamic-DNS reconciler (porkbun-rs).

The development shallowly embeds the record content model (src/record.rs),
the domain splitting and client-side validation (src/lib.rs) and the
reconciliation decision procedure (src/main.rs, update_dns).  Strings are
modelled as lists of characters; the IPv4/IPv6 address parsing and
rendering that `Content::from` and `Content::value_to_string` delegate to
the Rust standard library is embedded after the standard library's
`core::net::parser` reader and the `Display` implementations for
`Ipv4Addr`/`Ipv6Addr`.  All definitions use structural recursion so that
concrete inputs evaluate inside the kernel.
-/

namespace Hamsando

/-! ## Digits

Embedding of `char::to_digit` and of the digit characters the standard
numeric formatting emits (decimal for `u8`, lower-case hex for `u16`). -/

/-- Embedding of `char::to_digit(radix)`. -/
def digitVal (radix : Nat) (c : Char) : Option Nat :=
  let raw : Option Nat :=
    if '0' ≤ c ∧ c ≤ '9' then some (c.toNat - '0'.toNat)
    else if 'a' ≤ c ∧ c ≤ 'z' then some (c.toNat - 'a'.toNat + 10)
    else if 'A' ≤ c ∧ c ≤ 'Z' then some (c.toNat - 'A'.toNat + 10)
    else none
  match raw with
  | some d => if d < radix then some d else none
  | none => none

/-- The character standard formatting uses for digit `d` (0-9 then a-f). -/
def digitChr (d : Nat) : Char :=
  if d < 10 then Char.ofNat (48 + d) else Char.ofNat (87 + d)

/-- Fuelled most-significant-digit-first rendering of a natural number in
base `radix`; the fuel is only there for structural recursion and any fuel
at least `n` computes the same list. -/
def natToDigitsAux (radix : Nat) : Nat → Nat → List Char
  | 0, n => [digitChr n]
  | fuel + 1, n =>
    if n < radix then [digitChr n]
    else natToDigitsAux radix fuel (n / radix) ++ [digitChr (n % radix)]

/-- Rendering of `n` in base `radix`, most significant digit first, no
leading zeros, `0` rendered as "0": the digit string `{}` (base 10) and
`{:x}` (base 16) formatting produce. -/
def natToDigits (radix n : Nat) : List Char := natToDigitsAux radix n n

/-! ## The standard library address reader

Embedding of `core::net::parser`: `read_number`, `read_given_char`,
`read_separator`, `read_ipv4_addr`, `read_ipv6_addr` and the full-input
check of `parse_with`.  A reader takes the remaining input and returns the
parsed value and the rest, or `none`; failure consumes nothing, which the
callers implement by keeping the original list (`read_atomically`). -/

/-- One step of the digit loop of `read_number`: reads digits while they
match `radix`, with the checked arithmetic of the `u8`/`u16` accumulator
modelled by the `bound` tests, and the `max_digits` cut-off.  Returns the
accumulated value, the digit count and the rest of the input. -/
def readNumberLoop (radix maxDigits bound : Nat) :
    List Char → Nat → Nat → Option (Nat × Nat × List Char)
  | [], result, count => some (result, count, [])
  | c :: cs, result, count =>
    match digitVal radix c with
    | none => some (result, count, c :: cs)
    | some d =>
      if result * radix ≤ bound then
        if result * radix + d ≤ bound then
          if count + 1 ≤ maxDigits then
            readNumberLoop radix maxDigits bound cs (result * radix + d) (count + 1)
          else none
        else none
      else none

/-- Embedding of `Parser::read_number(radix, Some(max_digits),
allow_zero_pre)`: at least one digit, the zero-prefix rule, overflow of the
checked accumulator (bound 255 for `u8`, 65535 for `u16`) fails the whole
number. -/
def readNumber (radix maxDigits bound : Nat) (allowZeroPre : Bool)
    (input : List Char) : Option (Nat × List Char) :=
  let hasLeadingZero : Bool := decide (input.head? = some '0')
  match readNumberLoop radix maxDigits bound input 0 0 with
  | none => none
  | some (result, count, rest) =>
    if count = 0 then none
    else if !allowZeroPre && hasLeadingZero && decide (1 < count) then none
    else some (result, rest)

/-- Embedding of `Parser::read_given_char`. -/
def readGivenChar (c : Char) : List Char → Option (List Char)
  | [] => none
  | x :: xs => if x = c then some xs else none

/-- The digit value of the first input character, if any: the condition
under which the digit loop of `read_number` takes a further step. -/
def headDigit (radix : Nat) : List Char → Option Nat
  | [] => none
  | c :: _ => digitVal radix c

/-- The value a digit-character list denotes in base `radix`, folded onto
an accumulator (specification device for the digit loop). -/
def digitsValue (radix : Nat) : List Char → Nat → Nat
  | [], acc => acc
  | c :: cs, acc => digitsValue radix cs (acc * radix + (digitVal radix c).getD 0)

/-- One IPv4 octet with its separator: `read_separator('.', i,
read_number(10, Some(3), false))` over `u8`. -/
def readOctet (i : Nat) (input : List Char) : Option (Nat × List Char) :=
  if i = 0 then readNumber 10 3 255 false input
  else
    match readGivenChar '.' input with
    | none => none
    | some rest => readNumber 10 3 255 false rest

/-- An IPv4 address as four octet values. -/
structure Ipv4Addr where
  o1 : Nat
  o2 : Nat
  o3 : Nat
  o4 : Nat
deriving DecidableEq

/-- Embedding of `Parser::read_ipv4_addr`: four dot-separated decimal
octets, no zero prefixes. -/
def readIpv4 (input : List Char) : Option (Ipv4Addr × List Char) :=
  match readOctet 0 input with
  | none => none
  | some (a, r1) =>
    match readOctet 1 r1 with
    | none => none
    | some (b, r2) =>
      match readOctet 2 r2 with
      | none => none
      | some (c, r3) =>
        match readOctet 3 r3 with
        | none => none
        | some (d, r4) => some (⟨a, b, c, d⟩, r4)

/-- An IPv6 group with its separator: `read_separator(':', i,
read_number(16, Some(4), true))` over `u16`. -/
def readGroup (i : Nat) (input : List Char) : Option (Nat × List Char) :=
  if i = 0 then readNumber 16 4 65535 true input
  else
    match readGivenChar ':' input with
    | none => none
    | some rest => readNumber 16 4 65535 true rest

/-- A trailing embedded IPv4 address with its separator:
`read_separator(':', i, read_ipv4_addr)`. -/
def readV4InGroups (i : Nat) (input : List Char) : Option (Ipv4Addr × List Char) :=
  if i = 0 then readIpv4 input
  else
    match readGivenChar ':' input with
    | none => none
    | some rest => readIpv4 rest

/-- Embedding of `read_groups` from `read_ipv6_addr`.  `slots` is how many
of the fixed-size group array remain (the Rust loop bound `limit - i`) and
`i` the current group index, so the Rust guard `i < limit - 1` for trying a
trailing embedded IPv4 address (at least two groups must remain) becomes
`1 ≤ slots - 1`.  Returns the groups read, whether an embedded IPv4
address ended them, and the rest of the input. -/
def readGroups : Nat → Nat → List Char → List Nat × Bool × List Char
  | 0, _, input => ([], false, input)
  | slots + 1, i, input =>
    match (if 1 ≤ slots then readV4InGroups i input else none) with
    | some (v4, rest) => ([v4.o1 * 256 + v4.o2, v4.o3 * 256 + v4.o4], true, rest)
    | none =>
      match readGroup i input with
      | none => ([], false, input)
      | some (g, rest) =>
        let r := readGroups slots (i + 1) rest
        (g :: r.1, r.2.1, r.2.2)

/-- Embedding of `Parser::read_ipv6_addr`: up to eight groups, one `::`
compressing at least one zero group, an optional trailing embedded IPv4
address; yields the eight 16-bit segments. -/
def readIpv6 (input : List Char) : Option (List Nat × List Char) :=
  let h := readGroups 8 0 input
  if h.1.length = 8 then some (h.1, h.2.2)
  else if h.2.1 then none
  else
    match readGivenChar ':' h.2.2 with
    | none => none
    | some r1 =>
      match readGivenChar ':' r1 with
      | none => none
      | some r2 =>
        let t := readGroups (8 - (h.1.length + 1)) 0 r2
        some (h.1 ++ List.replicate (8 - h.1.length - t.1.length) 0 ++ t.1, t.2.2)

/-- Embedding of `Ipv4Addr::from_str` (`parse_with` requires the whole
input consumed). -/
def parseIpv4 (input : List Char) : Option Ipv4Addr :=
  match readIpv4 input with
  | some (a, []) => some a
  | _ => none

/-- An IPv6 address as eight 16-bit segment values. -/
structure Ipv6Addr where
  s0 : Nat
  s1 : Nat
  s2 : Nat
  s3 : Nat
  s4 : Nat
  s5 : Nat
  s6 : Nat
  s7 : Nat
deriving DecidableEq

/-- The segment list of an address, as `Ipv6Addr::segments`. -/
def Ipv6Addr.segments (a : Ipv6Addr) : List Nat :=
  [a.s0, a.s1, a.s2, a.s3, a.s4, a.s5, a.s6, a.s7]

/-- Embedding of `Ipv6Addr::from_str`. -/
def parseIpv6 (input : List Char) : Option Ipv6Addr :=
  match readIpv6 input with
  | some ([a, b, c, d, e, f, g, h], []) => some ⟨a, b, c, d, e, f, g, h⟩
  | _ => none

/-! ## The standard library address display -/

/-- Embedding of `Display for Ipv4Addr`: dotted decimal. -/
def displayIpv4 (a : Ipv4Addr) : List Char :=
  natToDigits 10 a.o1 ++
    '.' :: (natToDigits 10 a.o2 ++ '.' :: (natToDigits 10 a.o3 ++ '.' :: natToDigits 10 a.o4))

/-- Embedding of `to_ipv4_mapped`: defined exactly on
`[0, 0, 0, 0, 0, 0xffff, _, _]` segment vectors. -/
def Ipv6Addr.toIpv4Mapped (a : Ipv6Addr) : Option Ipv4Addr :=
  if a.s0 = 0 ∧ a.s1 = 0 ∧ a.s2 = 0 ∧ a.s3 = 0 ∧ a.s4 = 0 ∧ a.s5 = 65535 then
    some ⟨a.s6 / 256, a.s6 % 256, a.s7 / 256, a.s7 % 256⟩
  else none

/-- Groups rendered in lower-case hex, `:`-separated; `first` says whether
the first group is written without a preceding colon (embedding of the
`split_first` loop of `fmt_subslice`). -/
def renderGroupsFrom (first : Bool) : List Nat → List Char
  | [] => []
  | g :: gs => (if first then [] else [':']) ++ (natToDigits 16 g ++ renderGroupsFrom false gs)

/-- Embedding of `fmt_subslice`. -/
def fmtSubslice (gs : List Nat) : List Char := renderGroupsFrom true gs

/-- The longest-zero-run loop of `Display for Ipv6Addr`, over (start, len)
spans; ties keep the earlier span, a later strictly longer one wins. -/
def zeroSpanLoop : List Nat → Nat → Nat × Nat → Nat × Nat → Nat × Nat
  | [], _, longest, _ => longest
  | s :: rest, i, longest, current =>
    if s = 0 then
      let cur := if current.2 = 0 then (i, 1) else (current.1, current.2 + 1)
      let lon := if longest.2 < cur.2 then cur else longest
      zeroSpanLoop rest (i + 1) lon cur
    else
      zeroSpanLoop rest (i + 1) longest (0, 0)

/-- The inner zero span `Display for Ipv6Addr` compresses. -/
def zeroSpan (segs : List Nat) : Nat × Nat := zeroSpanLoop segs 0 (0, 0) (0, 0)

/-- Embedding of `Display for Ipv6Addr` (RFC 5952 form): `::` for the
unspecified address, `::1` for loopback, `::ffff:a.b.c.d` for IPv4-mapped
addresses, otherwise hex groups with the longest zero run of length at
least two compressed. -/
def displayIpv6 (a : Ipv6Addr) : List Char :=
  if a = ⟨0, 0, 0, 0, 0, 0, 0, 0⟩ then [':', ':']
  else if a = ⟨0, 0, 0, 0, 0, 0, 0, 1⟩ then [':', ':', '1']
  else
    match a.toIpv4Mapped with
    | some v4 => ':' :: ':' :: 'f' :: 'f' :: 'f' :: 'f' :: ':' :: displayIpv4 v4
    | none =>
      let z := zeroSpan a.segments
      if 1 < z.2 then
        fmtSubslice (a.segments.take z.1) ++ ':' :: ':' :: fmtSubslice (a.segments.drop (z.1 + z.2))
      else
        fmtSubslice a.segments

/-! ## The record content model (src/record.rs) -/

/-- The `Type` enumeration of src/record.rs (renamed: `Type` is a Lean
keyword). -/
inductive RecordType where
  | A
  | Mx
  | Cname
  | Alias
  | Txt
  | Ns
  | Aaaa
  | Srv
  | Tlsa
  | Caa
  | Https
  | Svcb
deriving DecidableEq, Fintype

/-- The canonical upper-case string form (`Type::as_str`, strum
`serialize_all = "UPPERCASE"`). -/
def RecordType.as_str : RecordType → List Char
  | .A => "A".toList
  | .Mx => "MX".toList
  | .Cname => "CNAME".toList
  | .Alias => "ALIAS".toList
  | .Txt => "TXT".toList
  | .Ns => "NS".toList
  | .Aaaa => "AAAA".toList
  | .Srv => "SRV".toList
  | .Tlsa => "TLSA".toList
  | .Caa => "CAA".toList
  | .Https => "HTTPS".toList
  | .Svcb => "SVCB".toList

/-- The `Content` union of src/record.rs: address payloads for A/AAAA,
opaque strings for the rest. -/
inductive Content where
  | A (addr : Ipv4Addr)
  | Mx (value : List Char)
  | Cname (value : List Char)
  | Alias (value : List Char)
  | Txt (value : List Char)
  | Ns (value : List Char)
  | Aaaa (addr : Ipv6Addr)
  | Srv (value : List Char)
  | Tlsa (value : List Char)
  | Caa (value : List Char)
  | Https (value : List Char)
  | Svcb (value : List Char)
deriving DecidableEq

/-- Embedding of `Type::from(&Content)`. -/
def RecordType.ofContent : Content → RecordType
  | .A _ => .A
  | .Mx _ => .Mx
  | .Cname _ => .Cname
  | .Alias _ => .Alias
  | .Txt _ => .Txt
  | .Ns _ => .Ns
  | .Aaaa _ => .Aaaa
  | .Srv _ => .Srv
  | .Tlsa _ => .Tlsa
  | .Caa _ => .Caa
  | .Https _ => .Https
  | .Svcb _ => .Svcb

/-- Embedding of `Content::type_as_str` (strum upper-case variant name). -/
def Content.type_as_str : Content → List Char
  | .A _ => "A".toList
  | .Mx _ => "MX".toList
  | .Cname _ => "CNAME".toList
  | .Alias _ => "ALIAS".toList
  | .Txt _ => "TXT".toList
  | .Ns _ => "NS".toList
  | .Aaaa _ => "AAAA".toList
  | .Srv _ => "SRV".toList
  | .Tlsa _ => "TLSA".toList
  | .Caa _ => "CAA".toList
  | .Https _ => "HTTPS".toList
  | .Svcb _ => "SVCB".toList

/-- Embedding of `Content::value_to_string`: addresses render through the
standard display, other variants return the stored string. -/
def Content.value_to_string : Content → List Char
  | .A addr => displayIpv4 addr
  | .Mx v => v
  | .Cname v => v
  | .Alias v => v
  | .Txt v => v
  | .Ns v => v
  | .Aaaa addr => displayIpv6 addr
  | .Srv v => v
  | .Tlsa v => v
  | .Caa v => v
  | .Https v => v
  | .Svcb v => v

/-- Embedding of `Content::from(&Type, &str)`: `none` models the
`AddrParseError` of `content.parse()` on the two address variants; every
other variant stores the string as given. -/
def Content.fromParts (t : RecordType) (content : List Char) : Option Content :=
  match t with
  | .A => (parseIpv4 content).map Content.A
  | .Mx => some (.Mx content)
  | .Cname => some (.Cname content)
  | .Alias => some (.Alias content)
  | .Txt => some (.Txt content)
  | .Ns => some (.Ns content)
  | .Aaaa => (parseIpv6 content).map Content.Aaaa
  | .Srv => some (.Srv content)
  | .Tlsa => some (.Tlsa content)
  | .Caa => some (.Caa content)
  | .Https => some (.Https content)
  | .Svcb => some (.Svcb content)

/-- The serde-derived tag matching of `Type` (`rename_all = "UPPERCASE"`):
a tag deserializes to the variant whose canonical upper-case name it
equals. -/
def RecordType.fromStr (s : List Char) : Option RecordType :=
  if s = "A".toList then some .A
  else if s = "MX".toList then some .Mx
  else if s = "CNAME".toList then some .Cname
  else if s = "ALIAS".toList then some .Alias
  else if s = "TXT".toList then some .Txt
  else if s = "NS".toList then some .Ns
  else if s = "AAAA".toList then some .Aaaa
  else if s = "SRV".toList then some .Srv
  else if s = "TLSA".toList then some .Tlsa
  else if s = "CAA".toList then some .Caa
  else if s = "HTTPS".toList then some .Https
  else if s = "SVCB".toList then some .Svcb
  else none

/-- The two failure modes of wire reconstruction (spec vocabulary for the
serde unknown-variant error and the address parse error). -/
inductive ContentError where
  | UnknownType
  | MalformedAddress
deriving DecidableEq

/-- Embedding of `Deserialize for Content` (src/record.rs lines 113-130):
deserialize the type tag, then `Content::from` on the content string. -/
def Content.parseWire (tag content : List Char) : Except ContentError Content :=
  match RecordType.fromStr tag with
  | none => .error .UnknownType
  | some t =>
    match Content.fromParts t content with
    | none => .error .MalformedAddress
    | some c => .ok c

/-- The `std::net::IpAddr` sum. -/
inductive IpAddr where
  | V4 (addr : Ipv4Addr)
  | V6 (addr : Ipv6Addr)
deriving DecidableEq

/-- Embedding of `From(IpAddr) for Content` (src/record.rs lines 104-111). -/
def Content.fromIpAddr : IpAddr → Content
  | .V4 addr => .A addr
  | .V6 addr => .Aaaa addr

/-- The provider-side `Record`: id, full name, content. -/
structure DnsRecord where
  id : Int
  name : List Char
  content : Content
deriving DecidableEq

/-! ## Domain names (src/lib.rs)

Modelled from the spec: the `addr::domain::Name` collaborator is external
to the repository ("Depends only on a domain-name parser collaborator
(external)").  A validated name carries its text and, when the public
suffix algorithm can determine one, the length of its registrable root
suffix; `root` is that suffix of the text and the subdomain part left of
the root is absent exactly when the name equals its root ("`prefix` is the
remaining left-hand labels dotted together, or absent (not empty-string)
when `name == root`"). -/
structure DomainName where
  name : List Char
  rootLen : Option Nat
deriving DecidableEq

/-- Modelled from the spec: `Name::root`, the registrable root suffix when
one is determinable. -/
def DomainName.rootStr (d : DomainName) : Option (List Char) :=
  d.rootLen.map (fun k => d.name.drop (d.name.length - k))

/-- Modelled from the spec: the subdomain labels left of the root, without
the joining dot, absent when the name equals its root. -/
def DomainName.preStr (d : DomainName) : Option (List Char) :=
  match d.rootLen with
  | none => none
  | some k =>
    if k = d.name.length then none
    else some (d.name.take (d.name.length - k - 1))

/-- The `DomainError` of src/lib.rs. -/
inductive DomainError where
  | HasPrefix (domain : List Char)
  | MissingRoot (domain : List Char)
deriving DecidableEq

/-- The `ApiError` of src/lib.rs; the transport variants (`Reqwest`,
`UrlParse`) carry opaque external errors and are never produced by the
modelled local-validation fragment. -/
inductive ApiError where
  | Domain (e : DomainError)
  | Reqwest
  | UrlParse
deriving DecidableEq

/-- Embedding of `split_domain` (src/lib.rs lines 377-384). -/
def split_domain (d : DomainName) : Except DomainError (Option (List Char) × List Char) :=
  match d.rootStr with
  | none => .error (.MissingRoot d.name)
  | some root => .ok (d.preStr, root)

/-- Embedding of `Client::delete_dns` (src/lib.rs lines 250-274) up to the
network boundary: a returned pair is the (root, id) the issued HTTP request
addresses; an error is returned before any request is built. -/
def delete_dns (d : DomainName) (id : Int) : Except ApiError (List Char × Int) :=
  match split_domain d with
  | .error e => .error (.Domain e)
  | .ok (p, root) =>
    match p with
    | some _ => .error (.Domain (.HasPrefix d.name))
    | none => .ok (root, id)

/-- Embedding of `Client::retrieve_dns` (src/lib.rs lines 303-339) up to
the network boundary: a returned pair is the (root, optional id) the issued
HTTP request addresses; an error is returned before any request is
built. -/
def retrieve_dns (d : DomainName) (id : Option Int) :
    Except ApiError (List Char × Option Int) :=
  match split_domain d with
  | .error e => .error (.Domain e)
  | .ok (p, root) =>
    match p with
    | some _ => .error (.Domain (.HasPrefix d.name))
    | none => .ok (root, id)

/-! ## The reconciler (src/main.rs, update_dns) -/

/-- The single provider mutation a reconcile run issues (`create_dns`,
`edit_dns`) or the idempotent no-op. -/
inductive DnsAction where
  | create (domain : List Char) (content : Content)
  | edit (domain : List Char) (id : Int) (content : Content)
  | noop
deriving DecidableEq

/-- The observable outcome of `update_dns`: the anyhow error for a rootless
domain, the panic of the `entries[root]` HashMap index on a missing key,
the `bail!` on multiple matches, or the one action issued. -/
inductive UpdateResult where
  | errNoRoot (domain : List Char)
  | panicMissingKey (root : List Char)
  | errMultiple (domain : List Char)
  | act (a : DnsAction)
deriving DecidableEq

/-- Association-list lookup modelling the pre-fetched
`HashMap(root, Vec(Record))` of main. -/
def lookupEntries (entries : List (List Char × List DnsRecord)) (key : List Char) :
    Option (List DnsRecord) :=
  match entries with
  | [] => none
  | (k, v) :: rest => if k = key then some v else lookupEntries rest key

/-- The record selection of `update_dns` (src/main.rs lines 133-138): keep
exactly the records whose full name equals the domain's text and whose
record type equals the desired content's type. -/
def matchesFilter (records : List DnsRecord) (domainName : List Char) (content : Content) :
    List DnsRecord :=
  records.filter fun r =>
    decide (r.name = domainName ∧ RecordType.ofContent r.content = RecordType.ofContent content)

/-- Embedding of `update_dns` (src/main.rs lines 124-149).  The
`dns.len().cmp(&1)` three-way branch appears as the list shape: `Less` is
the empty list, `Equal` a singleton, `Greater` everything longer.  The
external client is dropped; the issued call is returned as data. -/
def update_dns (entries : List (List Char × List DnsRecord)) (d : DomainName)
    (content : Content) : UpdateResult :=
  match d.rootStr with
  | none => .errNoRoot d.name
  | some root =>
    match lookupEntries entries root with
    | none => .panicMissingKey root
    | some records =>
      match matchesFilter records d.name content with
      | [] => .act (.create d.name content)
      | [r] => if r.content = content then .act .noop else .act (.edit d.name r.id content)
      | _ => .errMultiple d.name

/-! ## Reconciler lemmas -/

/-- Unfolding of `update_dns` once the root and the pre-fetched record list
are known. -/
theorem update_dns_of_found (entries : List (List Char × List DnsRecord)) (d : DomainName)
    (content : Content) (root : List Char) (records : List DnsRecord)
    (hroot : d.rootStr = some root)
    (hlook : lookupEntries entries root = some records) :
    update_dns entries d content =
      match matchesFilter records d.name content with
      | [] => .act (.create d.name content)
      | [r] => if r.content = content then .act .noop else .act (.edit d.name r.id content)
      | _ => .errMultiple d.name := by
  simp only [update_dns, hroot, hlook]

/-! ## Claims about the reconciler -/

/-- C1: for every reconcile call `update_dns(client, entries, domain,
desiredContent)` whose root lookup succeeds: zero matching provider records
issue exactly the one create call with the desired content at the domain
(no edit); one match with structurally equal content is the idempotent
no-op (no create, no edit); one match with different content issues exactly
the one edit call on that record's id with the desired content (no
create). -/
theorem claim_C1_reconcile_decision (entries : List (List Char × List DnsRecord))
    (d : DomainName) (content : Content) (root : List Char) (records : List DnsRecord)
    (hroot : d.rootStr = some root)
    (hlook : lookupEntries entries root = some records) :
    (matchesFilter records d.name content = [] →
      update_dns entries d content = .act (.create d.name content)) ∧
    (∀ r, matchesFilter records d.name content = [r] → r.content = content →
      update_dns entries d content = .act .noop) ∧
    (∀ r, matchesFilter records d.name content = [r] → r.content ≠ content →
      update_dns entries d content = .act (.edit d.name r.id content)) := by
  rw [update_dns_of_found entries d content root records hroot hlook]
  refine ⟨fun h => ?_, fun r h hc => ?_, fun r h hc => ?_⟩
  · rw [h]
  · rw [h]
    simp [hc]
  · rw [h]
    simp [hc]

/-- Witness for C1: the three decision branches at concrete inputs, all by
applying the claim's theorem. -/
theorem claim_C1_reconcile_decision_witness :
    update_dns [("example.com".toList, ([] : List DnsRecord))]
        ⟨"example.com".toList, some 11⟩ (Content.A ⟨203, 0, 113, 5⟩)
      = .act (.create ("example.com".toList) (Content.A ⟨203, 0, 113, 5⟩)) ∧
    update_dns [("example.com".toList, [⟨42, "example.com".toList, Content.A ⟨203, 0, 113, 5⟩⟩])]
        ⟨"example.com".toList, some 11⟩ (Content.A ⟨203, 0, 113, 5⟩)
      = .act .noop ∧
    update_dns [("example.com".toList, [⟨42, "example.com".toList, Content.A ⟨203, 0, 113, 5⟩⟩])]
        ⟨"example.com".toList, some 11⟩ (Content.A ⟨198, 51, 100, 9⟩)
      = .act (.edit ("example.com".toList) 42 (Content.A ⟨198, 51, 100, 9⟩)) := by
  refine ⟨(claim_C1_reconcile_decision _ _ _ ("example.com".toList) []
      (by decide) (by decide)).1 (by decide),
    (claim_C1_reconcile_decision _ _ _ ("example.com".toList)
      [⟨42, "example.com".toList, Content.A ⟨203, 0, 113, 5⟩⟩]
      (by decide) (by decide)).2.1 ⟨42, "example.com".toList, Content.A ⟨203, 0, 113, 5⟩⟩
      (by decide) (by decide),
    (claim_C1_reconcile_decision _ _ _ ("example.com".toList)
      [⟨42, "example.com".toList, Content.A ⟨203, 0, 113, 5⟩⟩]
      (by decide) (by decide)).2.2 ⟨42, "example.com".toList, Content.A ⟨203, 0, 113, 5⟩⟩
      (by decide) (by decide)⟩

/-- C2: with more than one matching provider record, `update_dns` fails
with the multiple-records error naming the domain and issues no create,
edit or delete call. -/
theorem claim_C2_ambiguity_refused (entries : List (List Char × List DnsRecord))
    (d : DomainName) (content : Content) (root : List Char) (records : List DnsRecord)
    (hroot : d.rootStr = some root)
    (hlook : lookupEntries entries root = some records)
    (hlen : 1 < (matchesFilter records d.name content).length) :
    update_dns entries d content = .errMultiple d.name ∧
      ∀ a, update_dns entries d content ≠ .act a := by
  rw [update_dns_of_found entries d content root records hroot hlook]
  match hm : matchesFilter records d.name content with
  | [] => rw [hm] at hlen; simp at hlen
  | [r] => rw [hm] at hlen; simp at hlen
  | r1 :: r2 :: rest => exact ⟨rfl, fun a h => UpdateResult.noConfusion h⟩

/-- Witness for C2: two A records for the same name at a concrete input. -/
theorem claim_C2_ambiguity_refused_witness :
    update_dns [("example.com".toList,
        [⟨1, "example.com".toList, Content.A ⟨203, 0, 113, 5⟩⟩,
         ⟨2, "example.com".toList, Content.A ⟨198, 51, 100, 9⟩⟩])]
      ⟨"example.com".toList, some 11⟩ (Content.A ⟨203, 0, 113, 5⟩)
      = .errMultiple ("example.com".toList) :=
  (claim_C2_ambiguity_refused _ _ _ ("example.com".toList)
    [⟨1, "example.com".toList, Content.A ⟨203, 0, 113, 5⟩⟩,
     ⟨2, "example.com".toList, Content.A ⟨198, 51, 100, 9⟩⟩]
    (by decide) (by decide) (by decide)).1

/-- C3: a record is selected as a match exactly when it is among the
records retrieved for the domain's root, its full name equals the domain's
full dotted name, and its record type equals the desired content's type —
an exact name-and-type match. -/
theorem claim_C3_exact_name_type_match (records : List DnsRecord) (dn : List Char)
    (content : Content) (r : DnsRecord) :
    r ∈ matchesFilter records dn content ↔
      r ∈ records ∧ r.name = dn ∧
        RecordType.ofContent r.content = RecordType.ofContent content := by
  simp [matchesFilter, List.mem_filter]

/-- C9: the claim that the `entries[root]` lookup in `update_dns` never
panics is false — for a domain whose root was omitted from the pre-fetched
map (as happens when that root's record retrieval failed), the HashMap
index panics; evaluated here at a concrete input with an empty map. -/
theorem claim_C9_missing_root_lookup_panics :
    update_dns [] ⟨"www.example.com".toList, some 11⟩ (Content.A ⟨203, 0, 113, 5⟩)
      = .panicMissingKey ("example.com".toList) := by decide

/-! ## Claims about the record content model -/

/-- C6: deriving the record type from a content value is total (it is a
function), agrees with the content's own type tag on every value, and the
canonical upper-case string forms of the twelve variants are pairwise
distinct. -/
theorem claim_C6_type_derivation_total_injective :
    (∀ c : Content, (RecordType.ofContent c).as_str = c.type_as_str) ∧
    (∀ t u : RecordType, t.as_str = u.as_str → t = u) :=
  ⟨fun c => by cases c <;> rfl, by decide⟩

/-- C10: converting a discovered IP address to desired content yields the A
variant carrying the address for IPv4 and the AAAA variant for IPv6, so the
derived record type always matches the address family. -/
theorem claim_C10_ip_family_matches (a4 : Ipv4Addr) (a6 : Ipv6Addr) :
    Content.fromIpAddr (.V4 a4) = .A a4 ∧
    Content.fromIpAddr (.V6 a6) = .Aaaa a6 ∧
    RecordType.ofContent (Content.fromIpAddr (.V4 a4)) = .A ∧
    RecordType.ofContent (Content.fromIpAddr (.V6 a6)) = .Aaaa :=
  ⟨rfl, rfl, rfl, rfl⟩

/-- C5: wire reconstruction fails with the unknown-type error exactly when
the tag matches no variant, fails with the malformed-address error when the
type is A or AAAA and the string is not a valid address literal of that
family, and succeeds for every other type on any input string, storing and
rendering it verbatim. -/
theorem claim_C5_wire_reconstruction_errors (tag s : List Char) :
    (RecordType.fromStr tag = none → Content.parseWire tag s = .error .UnknownType) ∧
    (RecordType.fromStr tag = some .A → parseIpv4 s = none →
      Content.parseWire tag s = .error .MalformedAddress) ∧
    (RecordType.fromStr tag = some .Aaaa → parseIpv6 s = none →
      Content.parseWire tag s = .error .MalformedAddress) ∧
    (∀ addr, RecordType.fromStr tag = some .A → parseIpv4 s = some addr →
      Content.parseWire tag s = .ok (.A addr)) ∧
    (∀ addr, RecordType.fromStr tag = some .Aaaa → parseIpv6 s = some addr →
      Content.parseWire tag s = .ok (.Aaaa addr)) ∧
    (∀ t, RecordType.fromStr tag = some t → t ≠ .A → t ≠ .Aaaa →
      ∃ c, Content.parseWire tag s = .ok c ∧ c.value_to_string = s) := by
  refine ⟨fun h => ?_, fun h ha => ?_, fun h ha => ?_, fun addr h ha => ?_,
    fun addr h ha => ?_, fun t h hA hAaaa => ?_⟩
  · simp [Content.parseWire, h]
  · simp [Content.parseWire, h, Content.fromParts, ha]
  · simp [Content.parseWire, h, Content.fromParts, ha]
  · simp [Content.parseWire, h, Content.fromParts, ha]
  · simp [Content.parseWire, h, Content.fromParts, ha]
  · cases t with
    | A => exact absurd rfl hA
    | Aaaa => exact absurd rfl hAaaa
    | Mx => exact ⟨.Mx s, by simp [Content.parseWire, h, Content.fromParts], rfl⟩
    | Cname => exact ⟨.Cname s, by simp [Content.parseWire, h, Content.fromParts], rfl⟩
    | Alias => exact ⟨.Alias s, by simp [Content.parseWire, h, Content.fromParts], rfl⟩
    | Txt => exact ⟨.Txt s, by simp [Content.parseWire, h, Content.fromParts], rfl⟩
    | Ns => exact ⟨.Ns s, by simp [Content.parseWire, h, Content.fromParts], rfl⟩
    | Srv => exact ⟨.Srv s, by simp [Content.parseWire, h, Content.fromParts], rfl⟩
    | Tlsa => exact ⟨.Tlsa s, by simp [Content.parseWire, h, Content.fromParts], rfl⟩
    | Caa => exact ⟨.Caa s, by simp [Content.parseWire, h, Content.fromParts], rfl⟩
    | Https => exact ⟨.Https s, by simp [Content.parseWire, h, Content.fromParts], rfl⟩
    | Svcb => exact ⟨.Svcb s, by simp [Content.parseWire, h, Content.fromParts], rfl⟩

/-! ## Claims about domain splitting and bare-root validation -/

/-- C7: `split_domain` fails with the missing-root error exactly when the
registrable root cannot be determined; on success it returns the derived
(prefix, root) pair, the prefix is absent exactly when the name equals its
root, and splitting an already-root name yields an absent prefix and the
name itself as root. -/
theorem claim_C7_split_domain_behaviour (d : DomainName) :
    (split_domain d = .error (.MissingRoot d.name) ↔ d.rootLen = none) ∧
    (∀ k, d.rootLen = some k → k ≤ d.name.length →
      split_domain d = .ok (d.preStr, d.name.drop (d.name.length - k)) ∧
        (d.preStr = none ↔ d.name.drop (d.name.length - k) = d.name)) ∧
    (d.rootLen = some d.name.length → split_domain d = .ok (none, d.name)) := by
  refine ⟨?_, ?_, ?_⟩
  · cases h : d.rootLen with
    | none => simp [split_domain, DomainName.rootStr, h]
    | some k => simp [split_domain, DomainName.rootStr, h]
  · intro k hk hkle
    have hroot : d.rootStr = some (d.name.drop (d.name.length - k)) := by
      simp [DomainName.rootStr, hk]
    refine ⟨by simp [split_domain, hroot], ?_⟩
    by_cases hkl : k = d.name.length
    · simp [DomainName.preStr, hk, hkl, Nat.sub_self]
    · constructor
      · intro hp
        exfalso
        simp [DomainName.preStr, hk, hkl] at hp
      · intro hdrop
        exfalso
        have hlen := congrArg List.length hdrop
        simp [List.length_drop] at hlen
        omega
  · intro hk
    have hroot : d.rootStr = some d.name := by
      simp [DomainName.rootStr, hk, Nat.sub_self]
    simp [split_domain, hroot, DomainName.preStr, hk]

/-- C8: the bare-root operations — delete by id and retrieve all — reject
any domain whose split yields a present prefix with the has-prefix domain
error, returned before any network request is built. -/
theorem claim_C8_bare_root_required (d : DomainName) (id : Int) (oid : Option Int)
    (p : List Char) (hp : d.preStr = some p) :
    delete_dns d id = .error (.Domain (.HasPrefix d.name)) ∧
    retrieve_dns d oid = .error (.Domain (.HasPrefix d.name)) := by
  cases hk : d.rootLen with
  | none => simp [DomainName.preStr, hk] at hp
  | some k =>
    have hroot : d.rootStr = some (d.name.drop (d.name.length - k)) := by
      simp [DomainName.rootStr, hk]
    have hsplit : split_domain d = .ok (d.preStr, d.name.drop (d.name.length - k)) := by
      simp [split_domain, hroot]
    constructor
    · simp [delete_dns, hsplit, hp]
    · simp [retrieve_dns, hsplit, hp]

/-- Witness for C8: a prefixed domain at a concrete input. -/
theorem claim_C8_bare_root_required_witness :
    delete_dns ⟨"www.example.com".toList, some 11⟩ 7
        = .error (.Domain (.HasPrefix ("www.example.com".toList))) ∧
    retrieve_dns ⟨"www.example.com".toList, some 11⟩ none
        = .error (.Domain (.HasPrefix ("www.example.com".toList))) :=
  claim_C8_bare_root_required ⟨"www.example.com".toList, some 11⟩ 7 none
    ("www".toList) (by decide)

/-! ## Digit strings

Lemmas connecting the digit renderer `natToDigits` with the digit reader
`readNumber`, leading to the address round-trip of C4. -/

/-- Reading back the character written for a digit recovers the digit, for
the radixes in use (10 and 16 are at most 16). -/
theorem digitVal_digitChr : ∀ radix < 17, ∀ d < radix, digitVal radix (digitChr d) = some d := by
  decide

/-- The digit character is '0' only for the digit 0. -/
theorem digitChr_eq_zero_char : ∀ d < 16, digitChr d = '0' → d = 0 := by decide

/-- The dot is not a digit in any base. -/
theorem digitVal_dot (radix : Nat) : digitVal radix '.' = none := rfl

/-- The colon is not a digit in any base. -/
theorem digitVal_colon (radix : Nat) : digitVal radix ':' = none := rfl

/-- Any fuel at least `n` computes the same digit string. -/
theorem natToDigitsAux_stable (radix : Nat) (hr : 2 ≤ radix) :
    ∀ n fuel fuel2, n ≤ fuel → n ≤ fuel2 →
      natToDigitsAux radix fuel n = natToDigitsAux radix fuel2 n := by
  intro n
  induction n using Nat.strong_induction_on with
  | _ n ih =>
    intro fuel fuel2 h1 h2
    by_cases hn : n < radix
    · have unfoldAny : ∀ f, natToDigitsAux radix f n = [digitChr n] := by
        intro f
        cases f with
        | zero => rfl
        | succ f => simp [natToDigitsAux, hn]
      rw [unfoldAny fuel, unfoldAny fuel2]
    · cases fuel with
      | zero => omega
      | succ f =>
        cases fuel2 with
        | zero => omega
        | succ f2 =>
          have hdiv : n / radix < n := Nat.div_lt_self (by omega) (by omega)
          simp only [natToDigitsAux, if_neg hn]
          rw [ih (n / radix) hdiv f f2 (by omega) (by omega)]

/-- The recursive unfolding of `natToDigits`. -/
theorem natToDigits_eq (radix n : Nat) (hr : 2 ≤ radix) :
    natToDigits radix n =
      if n < radix then [digitChr n]
      else natToDigits radix (n / radix) ++ [digitChr (n % radix)] := by
  by_cases hn : n < radix
  · rw [if_pos hn]
    show natToDigitsAux radix n n = _
    cases n with
    | zero => rfl
    | succ m => simp [natToDigitsAux, hn]
  · rw [if_neg hn]
    have h2 : 2 ≤ n := le_trans hr (le_of_not_lt hn)
    have hdiv : n / radix < n := Nat.div_lt_self (by omega) (by omega)
    show natToDigitsAux radix n n = _
    obtain ⟨m, rfl⟩ : ∃ m, n = m + 1 := ⟨n - 1, by omega⟩
    simp only [natToDigitsAux, if_neg hn]
    rw [natToDigitsAux_stable radix hr ((m + 1) / radix) m ((m + 1) / radix)
      (by omega) (le_refl _)]
    rfl

/-- A digit string is never empty. -/
theorem natToDigits_ne_nil (radix n : Nat) (hr : 2 ≤ radix) :
    natToDigits radix n ≠ [] := by
  rw [natToDigits_eq radix n hr]
  by_cases hn : n < radix
  · simp [hn]
  · simp [hn]

/-- Every character of a digit string reads back as a digit below the
radix. -/
theorem natToDigits_digits (radix : Nat) (hr1 : 2 ≤ radix) (hr2 : radix ≤ 16) :
    ∀ n, ∀ c ∈ natToDigits radix n, ∃ d, d < radix ∧ digitVal radix c = some d := by
  intro n
  induction n using Nat.strong_induction_on with
  | _ n ih =>
    intro c hc
    rw [natToDigits_eq radix n hr1] at hc
    by_cases hn : n < radix
    · rw [if_pos hn] at hc
      rcases List.mem_singleton.mp hc with rfl
      exact ⟨n, hn, digitVal_digitChr radix (by omega) n hn⟩
    · rw [if_neg hn] at hc
      rcases List.mem_append.mp hc with h | h
      · have hdiv : n / radix < n :=
          Nat.div_lt_self (by omega) (by omega)
        exact ih (n / radix) hdiv c h
      · rcases List.mem_singleton.mp h with rfl
        have hm : n % radix < radix := Nat.mod_lt n (by omega)
        exact ⟨n % radix, hm, digitVal_digitChr radix (by omega) _ hm⟩

/-- Folding a concatenation of digit strings. -/
theorem digitsValue_append (radix : Nat) (xs ys : List Char) :
    ∀ acc, digitsValue radix (xs ++ ys) acc = digitsValue radix ys (digitsValue radix xs acc) := by
  induction xs with
  | nil => intro acc; rfl
  | cons c cs ih =>
    intro acc
    simp only [List.cons_append, digitsValue]
    exact ih _

/-- The fold never decreases below its accumulator. -/
theorem digitsValue_le (radix : Nat) (hr : 1 ≤ radix) (ds : List Char) :
    ∀ acc, acc ≤ digitsValue radix ds acc := by
  induction ds with
  | nil => intro acc; exact le_refl _
  | cons c cs ih =>
    intro acc
    calc acc ≤ acc * radix + (digitVal radix c).getD 0 :=
          le_trans (Nat.le_mul_of_pos_right acc (by omega)) (Nat.le_add_right _ _)
      _ ≤ digitsValue radix cs (acc * radix + (digitVal radix c).getD 0) := ih _
      _ = digitsValue radix (c :: cs) acc := rfl

/-- The digit string of `n` folds back to `n` over any accumulator. -/
theorem natToDigits_value (radix : Nat) (hr1 : 2 ≤ radix) (hr2 : radix ≤ 16) :
    ∀ n acc, digitsValue radix (natToDigits radix n) acc =
      acc * radix ^ (natToDigits radix n).length + n := by
  intro n
  induction n using Nat.strong_induction_on with
  | _ n ih =>
    intro acc
    rw [natToDigits_eq radix n hr1]
    by_cases hn : n < radix
    · rw [if_pos hn]
      simp only [digitsValue, List.length_singleton, pow_one,
        digitVal_digitChr radix (by omega) n hn, Option.getD_some]
    · rw [if_neg hn]
      have hdiv : n / radix < n := Nat.div_lt_self (by omega) (by omega)
      have hm : n % radix < radix := Nat.mod_lt n (by omega)
      rw [digitsValue_append, ih (n / radix) hdiv acc]
      simp only [digitsValue, digitVal_digitChr radix (by omega) _ hm, Option.getD_some,
        List.length_append, List.length_singleton]
      rw [pow_succ]
      have := Nat.div_add_mod n radix
      ring_nf
      omega

/-- The digit string of `n` has at most `k` digits when `n` is below
`radix ^ k`. -/
theorem natToDigits_length_le (radix : Nat) (hr : 2 ≤ radix) :
    ∀ n k, 1 ≤ k → n < radix ^ k → (natToDigits radix n).length ≤ k := by
  intro n
  induction n using Nat.strong_induction_on with
  | _ n ih =>
    intro k hk hlt
    rw [natToDigits_eq radix n hr]
    by_cases hn : n < radix
    · simp [hn]
      omega
    · rw [if_neg hn]
      have hdiv : n / radix < n := Nat.div_lt_self (by omega) (by omega)
      have hk2 : 2 ≤ k := by
        by_contra hcon
        have : k = 1 := by omega
        subst this
        simp [pow_one] at hlt
        omega
      have hlt2 : n / radix < radix ^ (k - 1) := by
        have hrpos : 0 < radix := by omega
        rw [Nat.div_lt_iff_lt_mul hrpos]
        have : radix ^ (k - 1) * radix = radix ^ k := by
          rw [← pow_succ]
          congr 1
          omega
        omega
      have := ih (n / radix) hdiv (k - 1) (by omega) hlt2
      simp [List.length_append]
      omega

/-- The digit string of a nonzero number does not start with '0'. -/
theorem natToDigits_head_ne_zero (radix : Nat) (hr1 : 2 ≤ radix) (hr2 : radix ≤ 16) :
    ∀ n, n ≠ 0 → ∀ t, natToDigits radix n ≠ '0' :: t := by
  intro n
  induction n using Nat.strong_induction_on with
  | _ n ih =>
    intro hn0 t heq
    rw [natToDigits_eq radix n hr1] at heq
    by_cases hn : n < radix
    · rw [if_pos hn] at heq
      have : digitChr n = '0' := (List.cons.injEq _ _ _ _ ▸ heq).1
      exact hn0 (digitChr_eq_zero_char n (by omega) this)
    · rw [if_neg hn] at heq
      have hdiv : n / radix < n := Nat.div_lt_self (by omega) (by omega)
      have hdne : n / radix ≠ 0 := by
        have : radix ≤ n := le_of_not_lt hn
        have := Nat.one_le_div_iff (by omega : 0 < radix) |>.mpr this
        omega
      obtain ⟨c, cs, hcons⟩ :=
        List.exists_cons_of_ne_nil (natToDigits_ne_nil radix (n / radix) hr1)
      rw [hcons] at heq
      simp only [List.cons_append] at heq
      have hc : c = '0' := (List.cons.injEq _ _ _ _ ▸ heq).1
      exact ih (n / radix) hdiv hdne cs (hc ▸ hcons)

/-! ## Reading numbers back -/

/-- The digit loop consumes exactly a digit string followed by a non-digit
and accumulates its value. -/
theorem readNumberLoop_digits (radix maxDigits bound : Nat) (hr : 1 ≤ radix) :
    ∀ ds rest acc count,
      (∀ c ∈ ds, ∃ d, d < radix ∧ digitVal radix c = some d) →
      headDigit radix rest = none →
      digitsValue radix ds acc ≤ bound →
      count + ds.length ≤ maxDigits →
      readNumberLoop radix maxDigits bound (ds ++ rest) acc count =
        some (digitsValue radix ds acc, count + ds.length, rest) := by
  intro ds
  induction ds with
  | nil =>
    intro rest acc count hds hrest hb hc
    cases rest with
    | nil => simp [readNumberLoop, digitsValue]
    | cons c cs =>
      simp only [headDigit] at hrest
      simp [readNumberLoop, digitsValue, hrest]
  | cons c cs ih =>
    intro rest acc count hds hrest hb hc
    obtain ⟨d, hd, hdv⟩ := hds c (List.mem_cons_self c cs)
    have hdvfold : digitsValue radix (c :: cs) acc = digitsValue radix cs (acc * radix + d) := by
      simp [digitsValue, hdv]
    have hmono : acc * radix + d ≤ digitsValue radix (c :: cs) acc := by
      rw [hdvfold]
      exact digitsValue_le radix hr cs _
    have h2 : acc * radix + d ≤ bound := le_trans hmono hb
    have h1 : acc * radix ≤ bound := le_trans (Nat.le_add_right _ d) h2
    have h3 : count + 1 ≤ maxDigits := by
      simp only [List.length_cons] at hc
      omega
    simp only [List.cons_append, readNumberLoop, hdv]
    rw [if_pos h1, if_pos h2, if_pos h3]
    show readNumberLoop radix maxDigits bound (cs ++ rest) (acc * radix + d) (count + 1) = _
    rw [ih rest (acc * radix + d) (count + 1)
      (fun x hx => hds x (List.mem_cons_of_mem _ hx)) hrest
      (by rw [← hdvfold]; exact hb)
      (by simp only [List.length_cons] at hc; omega)]
    rw [hdvfold]
    have : count + 1 + cs.length = count + (c :: cs).length := by
      simp only [List.length_cons]
      omega
    rw [this]

/-- Reading a rendered number back: `read_number` on the digit string of
`n` followed by a non-digit yields `n` and stops at the non-digit. -/
theorem readNumber_renders (radix maxDigits bound : Nat) (az : Bool) (n : Nat)
    (hr1 : 2 ≤ radix) (hr2 : radix ≤ 16) (hb : n ≤ bound)
    (hlen : (natToDigits radix n).length ≤ maxDigits)
    (rest : List Char) (hrest : headDigit radix rest = none) :
    readNumber radix maxDigits bound az (natToDigits radix n ++ rest) = some (n, rest) := by
  have hval : digitsValue radix (natToDigits radix n) 0 = n := by
    rw [natToDigits_value radix hr1 hr2 n 0]
    simp
  have hloop := readNumberLoop_digits radix maxDigits bound (by omega)
    (natToDigits radix n) rest 0 0 (natToDigits_digits radix hr1 hr2 n) hrest
    (by rw [hval]; exact hb) (by simpa using hlen)
  rw [hval] at hloop
  have hcount : (natToDigits radix n).length ≠ 0 := by
    have := natToDigits_ne_nil radix n hr1
    simpa [List.length_eq_zero] using this
  by_cases hn0 : n = 0
  · subst hn0
    have hzero : natToDigits radix 0 = ['0'] := by
      rw [natToDigits_eq radix 0 hr1, if_pos (by omega)]
      rfl
    rw [hzero] at hloop ⊢
    rw [List.singleton_append] at hloop
    unfold readNumber
    simp [hloop]
  · obtain ⟨c, cs, hcons⟩ := List.exists_cons_of_ne_nil (natToDigits_ne_nil radix n hr1)
    have hcne : c ≠ '0' := fun h =>
      natToDigits_head_ne_zero radix hr1 hr2 n hn0 cs (by rw [hcons, h])
    rw [hcons] at hloop ⊢
    simp only [List.cons_append] at hloop
    unfold readNumber
    simp [hloop, hcne]

/-- `read_number` fails when the input does not start with a digit. -/
theorem readNumber_none (radix maxDigits bound : Nat) (az : Bool) (input : List Char)
    (h : headDigit radix input = none) :
    readNumber radix maxDigits bound az input = none := by
  cases input with
  | nil => rfl
  | cons c cs =>
    simp only [headDigit] at h
    simp [readNumber, readNumberLoop, h]

/-- The digit loop never exceeds the accumulator bound. -/
theorem readNumberLoop_le_bound (radix maxDigits bound : Nat) :
    ∀ input acc count v cnt rest, acc ≤ bound →
      readNumberLoop radix maxDigits bound input acc count = some (v, cnt, rest) →
      v ≤ bound := by
  intro input
  induction input with
  | nil =>
    intro acc count v cnt rest hacc h
    simp only [readNumberLoop, Option.some.injEq, Prod.mk.injEq] at h
    omega
  | cons c cs ih =>
    intro acc count v cnt rest hacc h
    cases hdv : digitVal radix c with
    | none =>
      simp only [readNumberLoop, hdv, Option.some.injEq, Prod.mk.injEq] at h
      omega
    | some d =>
      simp only [readNumberLoop, hdv] at h
      by_cases h1 : acc * radix ≤ bound
      · rw [if_pos h1] at h
        by_cases h2 : acc * radix + d ≤ bound
        · rw [if_pos h2] at h
          by_cases h3 : count + 1 ≤ maxDigits
          · rw [if_pos h3] at h
            exact ih _ _ v cnt rest h2 h
          · rw [if_neg h3] at h
            exact Option.noConfusion h
        · rw [if_neg h2] at h
          exact Option.noConfusion h
      · rw [if_neg h1] at h
        exact Option.noConfusion h

/-- A successfully read number is at most the accumulator bound. -/
theorem readNumber_le_bound (radix maxDigits bound : Nat) (az : Bool)
    (input : List Char) (v : Nat) (rest : List Char)
    (h : readNumber radix maxDigits bound az input = some (v, rest)) :
    v ≤ bound := by
  unfold readNumber at h
  cases hloop : readNumberLoop radix maxDigits bound input 0 0 with
  | none =>
    rw [hloop] at h
    exact Option.noConfusion h
  | some r =>
    obtain ⟨v', cnt, rest'⟩ := r
    simp only [hloop] at h
    by_cases hc : cnt = 0
    · rw [if_pos hc] at h
      exact Option.noConfusion h
    · rw [if_neg hc] at h
      split at h
      · exact Option.noConfusion h
      · simp only [Option.some.injEq, Prod.mk.injEq] at h
        obtain ⟨rfl, rfl⟩ := h
        exact readNumberLoop_le_bound radix maxDigits bound input 0 0 _ _ _
          (Nat.zero_le _) hloop

/-- The rest the digit loop returns is a sublist of its input. -/
theorem readNumberLoop_rest_sublist (radix maxDigits bound : Nat) :
    ∀ input acc count v cnt rest,
      readNumberLoop radix maxDigits bound input acc count = some (v, cnt, rest) →
      rest.Sublist input := by
  intro input
  induction input with
  | nil =>
    intro acc count v cnt rest h
    simp only [readNumberLoop, Option.some.injEq, Prod.mk.injEq] at h
    rw [← h.2.2]
  | cons c cs ih =>
    intro acc count v cnt rest h
    cases hdv : digitVal radix c with
    | none =>
      simp only [readNumberLoop, hdv, Option.some.injEq, Prod.mk.injEq] at h
      rw [← h.2.2]
    | some d =>
      simp only [readNumberLoop, hdv] at h
      by_cases h1 : acc * radix ≤ bound
      · rw [if_pos h1] at h
        by_cases h2 : acc * radix + d ≤ bound
        · rw [if_pos h2] at h
          by_cases h3 : count + 1 ≤ maxDigits
          · rw [if_pos h3] at h
            exact List.Sublist.cons c (ih _ _ v cnt rest h)
          · rw [if_neg h3] at h
            exact Option.noConfusion h
        · rw [if_neg h2] at h
          exact Option.noConfusion h
      · rw [if_neg h1] at h
        exact Option.noConfusion h

/-- The rest a successful `read_number` returns is a sublist of its
input. -/
theorem readNumber_rest_sublist (radix maxDigits bound : Nat) (az : Bool)
    (input : List Char) (v : Nat) (rest : List Char)
    (h : readNumber radix maxDigits bound az input = some (v, rest)) :
    rest.Sublist input := by
  unfold readNumber at h
  cases hloop : readNumberLoop radix maxDigits bound input 0 0 with
  | none =>
    rw [hloop] at h
    exact Option.noConfusion h
  | some r =>
    obtain ⟨v', cnt, rest'⟩ := r
    simp only [hloop] at h
    by_cases hc : cnt = 0
    · rw [if_pos hc] at h
      exact Option.noConfusion h
    · rw [if_neg hc] at h
      split at h
      · exact Option.noConfusion h
      · simp only [Option.some.injEq, Prod.mk.injEq] at h
        obtain ⟨rfl, rfl⟩ := h
        exact readNumberLoop_rest_sublist radix maxDigits bound input 0 0 _ _ _ hloop

/-! ## IPv4 reading and rendering -/

/-- Reading the first octet of a rendered address. -/
theorem readOctet_zero_renders (n : Nat) (hn : n ≤ 255) (rest : List Char)
    (hrest : headDigit 10 rest = none) :
    readOctet 0 (natToDigits 10 n ++ rest) = some (n, rest) := by
  show readNumber 10 3 255 false _ = _
  refine readNumber_renders 10 3 255 false n (by omega) (by omega) hn ?_ rest hrest
  refine natToDigits_length_le 10 (by omega) n 3 (by omega) ?_
  have : (10 : Nat) ^ 3 = 1000 := by norm_num
  omega

/-- Reading a later octet of a rendered address, after its dot. -/
theorem readOctet_sep_renders (i : Nat) (hi : i ≠ 0) (n : Nat) (hn : n ≤ 255)
    (rest : List Char) (hrest : headDigit 10 rest = none) :
    readOctet i ('.' :: (natToDigits 10 n ++ rest)) = some (n, rest) := by
  have hg : readGivenChar '.' ('.' :: (natToDigits 10 n ++ rest))
      = some (natToDigits 10 n ++ rest) := by
    simp [readGivenChar]
  unfold readOctet
  rw [if_neg hi]
  simp only [hg]
  refine readNumber_renders 10 3 255 false n (by omega) (by omega) hn ?_ rest hrest
  refine natToDigits_length_le 10 (by omega) n 3 (by omega) ?_
  have : (10 : Nat) ^ 3 = 1000 := by norm_num
  omega

/-- The rest a successful octet read returns is a sublist of its input. -/
theorem readOctet_rest_sublist (i : Nat) (input : List Char) (v : Nat) (rest : List Char)
    (h : readOctet i input = some (v, rest)) : rest.Sublist input := by
  unfold readOctet at h
  by_cases hi : i = 0
  · rw [if_pos hi] at h
    exact readNumber_rest_sublist _ _ _ _ _ _ _ h
  · rw [if_neg hi] at h
    cases input with
    | nil => exact Option.noConfusion h
    | cons x xs =>
      by_cases hx : x = '.'
      · simp only [readGivenChar, if_pos hx] at h
        exact List.Sublist.cons x (readNumber_rest_sublist _ _ _ _ _ _ _ h)
      · simp only [readGivenChar, if_neg hx] at h
        exact Option.noConfusion h

/-- A successfully read octet fits in a `u8`. -/
theorem readOctet_le (i : Nat) (input : List Char) (v : Nat) (rest : List Char)
    (h : readOctet i input = some (v, rest)) : v ≤ 255 := by
  unfold readOctet at h
  by_cases hi : i = 0
  · rw [if_pos hi] at h
    exact readNumber_le_bound _ _ _ _ _ _ _ h
  · rw [if_neg hi] at h
    cases hg : readGivenChar '.' input with
    | none =>
      rw [hg] at h
      exact Option.noConfusion h
    | some rest2 =>
      simp only [hg] at h
      exact readNumber_le_bound _ _ _ _ _ _ _ h

/-- The octets of a successfully read IPv4 address fit in `u8`s. -/
theorem readIpv4_octets_le (input : List Char) (a : Ipv4Addr) (rest : List Char)
    (h : readIpv4 input = some (a, rest)) :
    a.o1 ≤ 255 ∧ a.o2 ≤ 255 ∧ a.o3 ≤ 255 ∧ a.o4 ≤ 255 := by
  unfold readIpv4 at h
  cases h0 : readOctet 0 input with
  | none => rw [h0] at h; exact Option.noConfusion h
  | some p0 =>
    obtain ⟨v0, r0⟩ := p0
    simp only [h0] at h
    cases h1 : readOctet 1 r0 with
    | none => rw [h1] at h; exact Option.noConfusion h
    | some p1 =>
      obtain ⟨v1, r1⟩ := p1
      simp only [h1] at h
      cases h2 : readOctet 2 r1 with
      | none => rw [h2] at h; exact Option.noConfusion h
      | some p2 =>
        obtain ⟨v2, r2⟩ := p2
        simp only [h2] at h
        cases h3 : readOctet 3 r2 with
        | none => rw [h3] at h; exact Option.noConfusion h
        | some p3 =>
          obtain ⟨v3, r3⟩ := p3
          simp only [h3, Option.some.injEq, Prod.mk.injEq] at h
          obtain ⟨rfl, rfl⟩ := h
          exact ⟨readOctet_le 0 _ _ _ h0, readOctet_le 1 _ _ _ h1,
            readOctet_le 2 _ _ _ h2, readOctet_le 3 _ _ _ h3⟩

/-- `read_ipv4_addr` fails on any input with no dot. -/
theorem readIpv4_no_dot (input : List Char) (hdot : '.' ∉ input) :
    readIpv4 input = none := by
  unfold readIpv4
  cases h0 : readOctet 0 input with
  | none => rfl
  | some p0 =>
    obtain ⟨v0, r0⟩ := p0
    have hsub : r0.Sublist input := readOctet_rest_sublist 0 input v0 r0 h0
    have hdot0 : '.' ∉ r0 := fun hm => hdot (hsub.subset hm)
    have h1 : readOctet 1 r0 = none := by
      unfold readOctet
      rw [if_neg (by omega)]
      cases r0 with
      | nil => rfl
      | cons x xs =>
        have hx : ¬x = '.' := fun hx => hdot0 (hx ▸ List.mem_cons_self x xs)
        simp [readGivenChar, hx]
    simp [h1]

/-- `read_ipv4_addr` fails on any input not starting with a decimal
digit. -/
theorem readIpv4_none_of_head (input : List Char) (h : headDigit 10 input = none) :
    readIpv4 input = none := by
  have h0 : readOctet 0 input = none := by
    show readNumber 10 3 255 false input = none
    exact readNumber_none _ _ _ _ _ h
  unfold readIpv4
  simp [h0]

/-- Reading a displayed IPv4 address back, in reader form. -/
theorem readIpv4_display (a : Ipv4Addr) (h1 : a.o1 ≤ 255) (h2 : a.o2 ≤ 255)
    (h3 : a.o3 ≤ 255) (h4 : a.o4 ≤ 255) (rest : List Char)
    (hrest : headDigit 10 rest = none) :
    readIpv4 (displayIpv4 a ++ rest) = some (a, rest) := by
  have e : displayIpv4 a ++ rest =
      natToDigits 10 a.o1 ++ ('.' :: (natToDigits 10 a.o2 ++ ('.' :: (natToDigits 10 a.o3 ++
        ('.' :: (natToDigits 10 a.o4 ++ rest)))))) := by
    simp [displayIpv4, List.append_assoc]
  have hd : ∀ xs : List Char, headDigit 10 ('.' :: xs) = none := fun xs => rfl
  have s1 := readOctet_zero_renders a.o1 h1
    ('.' :: (natToDigits 10 a.o2 ++ ('.' :: (natToDigits 10 a.o3 ++
      ('.' :: (natToDigits 10 a.o4 ++ rest)))))) (hd _)
  have s2 := readOctet_sep_renders 1 (by omega) a.o2 h2
    ('.' :: (natToDigits 10 a.o3 ++ ('.' :: (natToDigits 10 a.o4 ++ rest)))) (hd _)
  have s3 := readOctet_sep_renders 2 (by omega) a.o3 h3
    ('.' :: (natToDigits 10 a.o4 ++ rest)) (hd _)
  have s4 := readOctet_sep_renders 3 (by omega) a.o4 h4 rest hrest
  rw [e]
  unfold readIpv4
  simp only [s1, s2, s3, s4]

/-- Round trip for IPv4: parsing the displayed form recovers the
address. -/
theorem parseIpv4_display (a : Ipv4Addr) (h1 : a.o1 ≤ 255) (h2 : a.o2 ≤ 255)
    (h3 : a.o3 ≤ 255) (h4 : a.o4 ≤ 255) :
    parseIpv4 (displayIpv4 a) = some a := by
  have hread := readIpv4_display a h1 h2 h3 h4 [] rfl
  rw [List.append_nil] at hread
  unfold parseIpv4
  simp [hread]

/-- Octet bounds for any parsed IPv4 address. -/
theorem parseIpv4_octets_le (s : List Char) (a : Ipv4Addr)
    (h : parseIpv4 s = some a) :
    a.o1 ≤ 255 ∧ a.o2 ≤ 255 ∧ a.o3 ≤ 255 ∧ a.o4 ≤ 255 := by
  unfold parseIpv4 at h
  cases hr : readIpv4 s with
  | none => rw [hr] at h; exact Option.noConfusion h
  | some p =>
    obtain ⟨a', rest⟩ := p
    simp only [hr] at h
    cases rest with
    | nil =>
      simp only [Option.some.injEq] at h
      subst h
      exact readIpv4_octets_le s a' [] hr
    | cons x xs => exact Option.noConfusion h

/-! ## IPv6 groups: reading rendered group lists -/

/-- Hex digit strings contain no dot. -/
theorem natToDigits16_no_dot (g : Nat) : '.' ∉ natToDigits 16 g := by
  intro hm
  obtain ⟨d, _, hdv⟩ := natToDigits_digits 16 (by omega) (by omega) g '.' hm
  rw [digitVal_dot] at hdv
  exact Option.noConfusion hdv

/-- Rendered group lists contain no dot. -/
theorem renderGroupsFrom_no_dot (b : Bool) (gs : List Nat) :
    '.' ∉ renderGroupsFrom b gs := by
  induction gs generalizing b with
  | nil => simp [renderGroupsFrom]
  | cons g gs ih =>
    intro hm
    simp only [renderGroupsFrom, List.mem_append] at hm
    rcases hm with h | h | h
    · cases b with
      | true => simp at h
      | false => simp at h
    · exact natToDigits16_no_dot g h
    · exact ih false h

/-- A colon-led rendered tail never starts with a hex digit. -/
theorem headDigit_renderFalse (gs : List Nat) (suffix : List Char)
    (hs : headDigit 16 suffix = none) :
    headDigit 16 (renderGroupsFrom false gs ++ suffix) = none := by
  cases gs with
  | nil => simpa [renderGroupsFrom]
  | cons g gs => rfl

/-- The embedded-IPv4 attempt fails on any input with no dot. -/
theorem readV4InGroups_no_dot (i : Nat) (input : List Char) (hdot : '.' ∉ input) :
    readV4InGroups i input = none := by
  unfold readV4InGroups
  by_cases hi : i = 0
  · rw [if_pos hi]
    exact readIpv4_no_dot input hdot
  · rw [if_neg hi]
    cases input with
    | nil => rfl
    | cons x xs =>
      by_cases hx : x = ':'
      · simp only [readGivenChar, if_pos hx]
        exact readIpv4_no_dot xs (fun hm => hdot (List.mem_cons_of_mem _ hm))
      · simp only [readGivenChar, if_neg hx]

/-- `read_groups` consumes exactly a rendered group list and stops at a
suffix that is empty or starts with the `::` marker. -/
theorem readGroups_renders :
    ∀ (gs : List Nat) (slots i : Nat) (b : Bool) (suffix : List Char),
      (b = true ↔ i = 0) →
      (∀ g ∈ gs, g ≤ 65535) →
      gs.length ≤ slots →
      '.' ∉ suffix →
      headDigit 16 suffix = none →
      (∀ r, suffix = ':' :: r → headDigit 16 r = none) →
      readGroups slots i (renderGroupsFrom b gs ++ suffix) = (gs, false, suffix) := by
  intro gs
  induction gs with
  | nil =>
    intro slots i b suffix hb hle hlen hdot hs1 hs2
    simp only [renderGroupsFrom, List.nil_append]
    cases slots with
    | zero => rfl
    | succ s =>
      have hv4 : readV4InGroups i suffix = none := readV4InGroups_no_dot i suffix hdot
      have hg : readGroup i suffix = none := by
        unfold readGroup
        by_cases hi : i = 0
        · rw [if_pos hi]
          exact readNumber_none _ _ _ _ _ hs1
        · rw [if_neg hi]
          cases suffix with
          | nil => rfl
          | cons x xs =>
            by_cases hx : x = ':'
            · subst hx
              simp only [readGivenChar, if_pos rfl]
              exact readNumber_none _ _ _ _ _ (hs2 xs rfl)
            · simp only [readGivenChar, if_neg hx]
      have hif : (if 1 ≤ s then readV4InGroups i suffix else none) = none := by
        by_cases h1 : 1 ≤ s
        · rw [if_pos h1]; exact hv4
        · rw [if_neg h1]
      unfold readGroups
      simp [hif, hg]
  | cons g gs ih =>
    intro slots i b suffix hb hle hlen hdot hs1 hs2
    cases slots with
    | zero => simp at hlen
    | succ s =>
      have hg_le : g ≤ 65535 := hle g (List.mem_cons_self g gs)
      have hlen4 : (natToDigits 16 g).length ≤ 4 := by
        refine natToDigits_length_le 16 (by omega) g 4 (by omega) ?_
        have : (16 : Nat) ^ 4 = 65536 := by norm_num
        omega
      have hrest_hd : headDigit 16 (renderGroupsFrom false gs ++ suffix) = none :=
        headDigit_renderFalse gs suffix hs1
      have hnum : readNumber 16 4 65535 true
          (natToDigits 16 g ++ (renderGroupsFrom false gs ++ suffix)) =
          some (g, renderGroupsFrom false gs ++ suffix) :=
        readNumber_renders 16 4 65535 true g (by omega) (by omega) hg_le hlen4 _ hrest_hd
      have ihnext := ih s (i + 1) false suffix (by simp)
        (fun x hx => hle x (List.mem_cons_of_mem _ hx))
        (by simp only [List.length_cons] at hlen; omega) hdot hs1 hs2
      cases b with
      | true =>
        have hi : i = 0 := hb.mp rfl
        subst hi
        have hinput : renderGroupsFrom true (g :: gs) ++ suffix =
            natToDigits 16 g ++ (renderGroupsFrom false gs ++ suffix) := by
          simp [renderGroupsFrom, List.append_assoc]
        have hdotall : '.' ∉ renderGroupsFrom true (g :: gs) ++ suffix := by
          intro hm
          rcases List.mem_append.mp hm with h | h
          · exact renderGroupsFrom_no_dot _ _ h
          · exact hdot h
        have hv4 : readV4InGroups 0 (renderGroupsFrom true (g :: gs) ++ suffix) = none :=
          readV4InGroups_no_dot 0 _ hdotall
        have hgroup : readGroup 0 (renderGroupsFrom true (g :: gs) ++ suffix) =
            some (g, renderGroupsFrom false gs ++ suffix) := by
          show readNumber 16 4 65535 true _ = _
          rw [hinput]
          exact hnum
        have hif : (if 1 ≤ s then readV4InGroups 0 (renderGroupsFrom true (g :: gs) ++ suffix)
            else none) = none := by
          by_cases h1 : 1 ≤ s
          · rw [if_pos h1]; exact hv4
          · rw [if_neg h1]
        unfold readGroups
        simp [hif, hgroup, ihnext]
      | false =>
        have hi : i ≠ 0 := by
          intro h
          have := hb.mpr h
          exact Bool.noConfusion this
        have hinput : renderGroupsFrom false (g :: gs) ++ suffix =
            ':' :: (natToDigits 16 g ++ (renderGroupsFrom false gs ++ suffix)) := by
          simp [renderGroupsFrom, List.append_assoc]
        have hdotall : '.' ∉ renderGroupsFrom false (g :: gs) ++ suffix := by
          intro hm
          rcases List.mem_append.mp hm with h | h
          · exact renderGroupsFrom_no_dot _ _ h
          · exact hdot h
        have hv4 : readV4InGroups i (renderGroupsFrom false (g :: gs) ++ suffix) = none :=
          readV4InGroups_no_dot i _ hdotall
        have hgroup : readGroup i (renderGroupsFrom false (g :: gs) ++ suffix) =
            some (g, renderGroupsFrom false gs ++ suffix) := by
          unfold readGroup
          rw [if_neg hi, hinput]
          simp only [readGivenChar, if_pos rfl]
          exact hnum
        have hif : (if 1 ≤ s then readV4InGroups i (renderGroupsFrom false (g :: gs) ++ suffix)
            else none) = none := by
          by_cases h1 : 1 ≤ s
          · rw [if_pos h1]; exact hv4
          · rw [if_neg h1]
        unfold readGroups
        simp [hif, hgroup, ihnext]

/-- `read_groups` on a bare rendered group list with stop suffix, starting
at index 0 as `fmt_subslice` writes it. -/
theorem readGroups_fmt (gs : List Nat) (slots : Nat) (suffix : List Char)
    (hle : ∀ g ∈ gs, g ≤ 65535) (hlen : gs.length ≤ slots) (hdot : '.' ∉ suffix)
    (hs1 : headDigit 16 suffix = none)
    (hs2 : ∀ r, suffix = ':' :: r → headDigit 16 r = none) :
    readGroups slots 0 (fmtSubslice gs ++ suffix) = (gs, false, suffix) :=
  readGroups_renders gs slots 0 true suffix (by simp) hle hlen hdot hs1 hs2

/-- `read_groups` on a bare rendered group list alone. -/
theorem readGroups_fmt_nil (gs : List Nat) (slots : Nat)
    (hle : ∀ g ∈ gs, g ≤ 65535) (hlen : gs.length ≤ slots) :
    readGroups slots 0 (fmtSubslice gs) = (gs, false, []) := by
  have := readGroups_fmt gs slots [] hle hlen (by simp) rfl (fun r hr => by simp at hr)
  simpa using this

/-! ## Bounds on parsed IPv6 segments -/

/-- The embedded-IPv4 attempt yields octets that fit in `u8`s. -/
theorem readV4InGroups_le (i : Nat) (input : List Char) (v4 : Ipv4Addr) (rest : List Char)
    (h : readV4InGroups i input = some (v4, rest)) :
    v4.o1 ≤ 255 ∧ v4.o2 ≤ 255 ∧ v4.o3 ≤ 255 ∧ v4.o4 ≤ 255 := by
  unfold readV4InGroups at h
  by_cases hi : i = 0
  · rw [if_pos hi] at h
    exact readIpv4_octets_le _ _ _ h
  · rw [if_neg hi] at h
    cases hg : readGivenChar ':' input with
    | none => rw [hg] at h; exact Option.noConfusion h
    | some rest2 =>
      simp only [hg] at h
      exact readIpv4_octets_le _ _ _ h

/-- A successfully read group fits in a `u16`. -/
theorem readGroup_le (i : Nat) (input : List Char) (g : Nat) (rest : List Char)
    (h : readGroup i input = some (g, rest)) : g ≤ 65535 := by
  unfold readGroup at h
  by_cases hi : i = 0
  · rw [if_pos hi] at h
    exact readNumber_le_bound _ _ _ _ _ _ _ h
  · rw [if_neg hi] at h
    cases hg : readGivenChar ':' input with
    | none => rw [hg] at h; exact Option.noConfusion h
    | some rest2 =>
      simp only [hg] at h
      exact readNumber_le_bound _ _ _ _ _ _ _ h

/-- Every group `read_groups` produces fits in a `u16`. -/
theorem readGroups_le :
    ∀ (slots i : Nat) (input : List Char), ∀ g ∈ (readGroups slots i input).1, g ≤ 65535 := by
  intro slots
  induction slots with
  | zero =>
    intro i input g hg
    simp [readGroups] at hg
  | succ s ih =>
    intro i input g hg
    unfold readGroups at hg
    cases hv4 : (if 1 ≤ s then readV4InGroups i input else none) with
    | some p =>
      obtain ⟨v4, rest⟩ := p
      simp only [hv4] at hg
      have hoct : v4.o1 ≤ 255 ∧ v4.o2 ≤ 255 ∧ v4.o3 ≤ 255 ∧ v4.o4 ≤ 255 := by
        by_cases h1 : 1 ≤ s
        · rw [if_pos h1] at hv4
          exact readV4InGroups_le _ _ _ _ hv4
        · rw [if_neg h1] at hv4
          exact Option.noConfusion hv4
      simp only [List.mem_cons, List.not_mem_nil, or_false] at hg
      rcases hg with rfl | rfl <;> omega
    | none =>
      simp only [hv4] at hg
      cases hgr : readGroup i input with
      | none =>
        simp only [hgr] at hg
        simp at hg
      | some p =>
        obtain ⟨g0, rest⟩ := p
        simp only [hgr, List.mem_cons] at hg
        rcases hg with rfl | hg
        · exact readGroup_le _ _ _ _ hgr
        · exact ih (i + 1) rest g hg

/-- Every segment `read_ipv6_addr` produces fits in a `u16`. -/
theorem readIpv6_le (input : List Char) (L : List Nat) (rest : List Char)
    (h : readIpv6 input = some (L, rest)) : ∀ g ∈ L, g ≤ 65535 := by
  unfold readIpv6 at h
  by_cases h8 : (readGroups 8 0 input).1.length = 8
  · rw [if_pos h8] at h
    simp only [Option.some.injEq, Prod.mk.injEq] at h
    obtain ⟨rfl, rfl⟩ := h
    exact readGroups_le 8 0 input
  · rw [if_neg h8] at h
    by_cases hb : (readGroups 8 0 input).2.1 = true
    · rw [if_pos hb] at h
      exact Option.noConfusion h
    · rw [if_neg hb] at h
      cases hc1 : readGivenChar ':' (readGroups 8 0 input).2.2 with
      | none => rw [hc1] at h; exact Option.noConfusion h
      | some r1 =>
        simp only [hc1] at h
        cases hc2 : readGivenChar ':' r1 with
        | none => rw [hc2] at h; exact Option.noConfusion h
        | some r2 =>
          simp only [hc2, Option.some.injEq, Prod.mk.injEq] at h
          obtain ⟨rfl, rfl⟩ := h
          intro g hg
          rcases List.mem_append.mp hg with hg | hg
          · rcases List.mem_append.mp hg with hg | hg
            · exact readGroups_le 8 0 input g hg
            · have := List.eq_of_mem_replicate hg
              omega
          · exact readGroups_le _ 0 r2 g hg

/-- Every segment of a parsed IPv6 address fits in a `u16`. -/
theorem parseIpv6_segments_le (s : List Char) (a : Ipv6Addr)
    (h : parseIpv6 s = some a) : ∀ g ∈ a.segments, g ≤ 65535 := by
  unfold parseIpv6 at h
  cases hr : readIpv6 s with
  | none => rw [hr] at h; exact Option.noConfusion h
  | some p =>
    obtain ⟨L, rest⟩ := p
    simp only [hr] at h
    rcases L with _ | ⟨v0, L⟩
    · simp at h
    rcases L with _ | ⟨v1, L⟩
    · simp at h
    rcases L with _ | ⟨v2, L⟩
    · simp at h
    rcases L with _ | ⟨v3, L⟩
    · simp at h
    rcases L with _ | ⟨v4, L⟩
    · simp at h
    rcases L with _ | ⟨v5, L⟩
    · simp at h
    rcases L with _ | ⟨v6, L⟩
    · simp at h
    rcases L with _ | ⟨v7, L⟩
    · simp at h
    rcases L with _ | ⟨v8, L⟩
    · cases rest with
      | cons x xs => simp at h
      | nil =>
        simp only [Option.some.injEq] at h
        subst h
        intro g hg
        refine readIpv6_le s _ [] hr g ?_
        simpa [Ipv6Addr.segments] using hg
    · simp at h

/-! ## The zero span of the IPv6 display -/

/-- Soundness of the longest-zero-run loop: the span it returns lies within
the list and covers only zeros. -/
theorem zeroSpanLoop_sound (full : List Nat) :
    ∀ (rem : List Nat) (i : Nat) (lon cur : Nat × Nat),
      rem = full.drop i →
      lon.1 + lon.2 ≤ full.length →
      (full.drop lon.1).take lon.2 = List.replicate lon.2 0 →
      (cur.2 = 0 ∨ cur.1 + cur.2 = i) →
      (full.drop cur.1).take cur.2 = List.replicate cur.2 0 →
      (zeroSpanLoop rem i lon cur).1 + (zeroSpanLoop rem i lon cur).2 ≤ full.length ∧
        (full.drop (zeroSpanLoop rem i lon cur).1).take (zeroSpanLoop rem i lon cur).2 =
          List.replicate (zeroSpanLoop rem i lon cur).2 0 := by
  intro rem
  induction rem generalizing full with
  | nil =>
    intro i lon cur hrem hlon1 hlon2 hcur1 hcur2
    exact ⟨hlon1, hlon2⟩
  | cons x rest ih =>
    intro i lon cur hrem hlon1 hlon2 hcur1 hcur2
    have hi : i < full.length := by
      by_contra hcon
      have : full.drop i = [] := List.drop_eq_nil_of_le (by omega)
      rw [this] at hrem
      exact List.noConfusion hrem
    have hrest : rest = full.drop (i + 1) := by
      have : full.drop (i + 1) = List.drop 1 (full.drop i) := by
        rw [List.drop_drop]
      rw [this, ← hrem]
      rfl
    have hgeti : full[i]? = some x := by
      have h0 := List.getElem?_drop full i 0
      rw [← hrem] at h0
      simpa using h0.symm
    by_cases hx : x = 0
    · subst hx
      simp only [zeroSpanLoop, if_pos rfl]
      set cur2 : Nat × Nat := if cur.2 = 0 then (i, 1) else (cur.1, cur.2 + 1) with hcur2def
      have hcur2sum : cur2.1 + cur2.2 = i + 1 := by
        by_cases hc : cur.2 = 0
        · simp [hcur2def, hc]
        · simp only [hcur2def, if_neg hc]
          rcases hcur1 with h | h
          · exact absurd h hc
          · omega
      have hcur2z : (full.drop cur2.1).take cur2.2 = List.replicate cur2.2 0 := by
        by_cases hc : cur.2 = 0
        · simp only [hcur2def, if_pos hc]
          have : (full.drop i).take 1 = [0] := by
            rw [← hrem]
            rfl
          simpa using this
        · simp only [hcur2def, if_neg hc]
          rcases hcur1 with h | h
          · exact absurd h hc
          · have hget : (full.drop cur.1)[cur.2]? = some 0 := by
              rw [List.getElem?_drop, h, hgeti]
            rw [List.take_succ, hcur2, hget, List.replicate_succ']
            rfl
      have hlon2' : ∀ p : Nat × Nat, p = (if lon.2 < cur2.2 then cur2 else lon) →
          p.1 + p.2 ≤ full.length ∧
            (full.drop p.1).take p.2 = List.replicate p.2 0 := by
        intro p hp
        by_cases hcmp : lon.2 < cur2.2
        · rw [if_pos hcmp] at hp
          subst hp
          exact ⟨by omega, hcur2z⟩
        · rw [if_neg hcmp] at hp
          subst hp
          exact ⟨hlon1, hlon2⟩
      obtain ⟨hl1, hl2⟩ := hlon2' _ rfl
      exact ih full (i + 1) (if lon.2 < cur2.2 then cur2 else lon) cur2 hrest hl1 hl2
        (Or.inr hcur2sum) hcur2z
    · simp only [zeroSpanLoop, if_neg hx]
      exact ih full (i + 1) lon (0, 0) hrest hlon1 hlon2 (Or.inl rfl) (by simp)

/-- The span `Display for Ipv6Addr` compresses lies within the segment list
and covers only zeros. -/
theorem zeroSpan_sound (segs : List Nat) :
    (zeroSpan segs).1 + (zeroSpan segs).2 ≤ segs.length ∧
      (segs.drop (zeroSpan segs).1).take (zeroSpan segs).2 =
        List.replicate (zeroSpan segs).2 0 := by
  unfold zeroSpan
  exact zeroSpanLoop_sound segs segs 0 (0, 0) (0, 0) (by simp) (by simp) (by simp)
    (Or.inl rfl) (by simp)

/-! ## The IPv6 round trip -/

/-- `read_groups` finds no group at an input starting with a colon. -/
theorem readGroups_colon_start (tail : List Char) :
    readGroups 8 0 (':' :: tail) = ([], false, ':' :: tail) := by
  have t1 : readIpv4 (':' :: tail) = none := readIpv4_none_of_head _ rfl
  have t2 : readNumber 16 4 65535 true (':' :: tail) = none := readNumber_none _ _ _ _ _ rfl
  unfold readGroups
  simp [readV4InGroups, readGroup, t1, t2]

/-- The display of an IPv4-mapped address. -/
theorem displayIpv6_mapped (a : Ipv6Addr) (hz : a ≠ ⟨0, 0, 0, 0, 0, 0, 0, 0⟩)
    (hl : a ≠ ⟨0, 0, 0, 0, 0, 0, 0, 1⟩) (v4 : Ipv4Addr)
    (hmap : a.toIpv4Mapped = some v4) :
    displayIpv6 a = ':' :: ':' :: 'f' :: 'f' :: 'f' :: 'f' :: ':' :: displayIpv4 v4 := by
  unfold displayIpv6
  rw [if_neg hz, if_neg hl, hmap]

/-- The display of a general address: compress the zero span when it has
length at least two, else write all eight groups. -/
theorem displayIpv6_general (a : Ipv6Addr) (hz : a ≠ ⟨0, 0, 0, 0, 0, 0, 0, 0⟩)
    (hl : a ≠ ⟨0, 0, 0, 0, 0, 0, 0, 1⟩) (hmap : a.toIpv4Mapped = none) :
    displayIpv6 a =
      if 1 < (zeroSpan a.segments).2 then
        fmtSubslice (a.segments.take (zeroSpan a.segments).1) ++
          ':' :: ':' :: fmtSubslice
            (a.segments.drop ((zeroSpan a.segments).1 + (zeroSpan a.segments).2))
      else fmtSubslice a.segments := by
  unfold displayIpv6
  rw [if_neg hz, if_neg hl, hmap]

/-- Round trip for IPv6: parsing the displayed form recovers the
address. -/
theorem parseIpv6_display (a : Ipv6Addr) (hseg : ∀ g ∈ a.segments, g ≤ 65535) :
    parseIpv6 (displayIpv6 a) = some a := by
  obtain ⟨s0, s1, s2, s3, s4, s5, s6, s7⟩ := a
  simp only [Ipv6Addr.segments] at hseg
  have h6 : s6 ≤ 65535 := hseg s6 (by simp)
  have h7 : s7 ≤ 65535 := hseg s7 (by simp)
  by_cases hz : Ipv6Addr.mk s0 s1 s2 s3 s4 s5 s6 s7 = ⟨0, 0, 0, 0, 0, 0, 0, 0⟩
  · rw [hz]
    decide
  by_cases hl : Ipv6Addr.mk s0 s1 s2 s3 s4 s5 s6 s7 = ⟨0, 0, 0, 0, 0, 0, 0, 1⟩
  · rw [hl]
    decide
  by_cases hmap : s0 = 0 ∧ s1 = 0 ∧ s2 = 0 ∧ s3 = 0 ∧ s4 = 0 ∧ s5 = 65535
  · obtain ⟨rfl, rfl, rfl, rfl, rfl, hm5⟩ := hmap
    subst hm5
    have ho1 : s6 / 256 ≤ 255 := by omega
    have ho2 : s6 % 256 ≤ 255 := by omega
    have ho3 : s7 / 256 ≤ 255 := by omega
    have ho4 : s7 % 256 ≤ 255 := by omega
    set v4c : Ipv4Addr := ⟨s6 / 256, s6 % 256, s7 / 256, s7 % 256⟩ with hv4c
    have hm : Ipv6Addr.toIpv4Mapped ⟨0, 0, 0, 0, 0, 65535, s6, s7⟩ = some v4c := by
      simp [Ipv6Addr.toIpv4Mapped, hv4c]
    rw [displayIpv6_mapped _ hz hl v4c hm]
    have hreadD : readIpv4 (displayIpv4 v4c) = some (v4c, []) := by
      have := readIpv4_display v4c ho1 ho2 ho3 ho4 [] rfl
      rwa [List.append_nil] at this
    have hffff : natToDigits 16 65535 = ['f', 'f', 'f', 'f'] := by decide
    have hnum : readNumber 16 4 65535 true
        ('f' :: 'f' :: 'f' :: 'f' :: ':' :: displayIpv4 v4c) =
        some (65535, ':' :: displayIpv4 v4c) := by
      have hr := readNumber_renders 16 4 65535 true 65535 (by omega) (by omega)
        (le_refl _) (by rw [hffff]; simp) (':' :: displayIpv4 v4c) rfl
      rw [hffff] at hr
      simpa using hr
    have hBv4 : readV4InGroups 1 (':' :: displayIpv4 v4c) = some (v4c, []) := by
      unfold readV4InGroups
      rw [if_neg (by omega)]
      simp only [readGivenChar, if_pos rfl]
      exact hreadD
    have hB1 : readGroups 6 1 (':' :: displayIpv4 v4c) =
        ([v4c.o1 * 256 + v4c.o2, v4c.o3 * 256 + v4c.o4], true, []) := by
      unfold readGroups
      simp [hBv4]
    have tv4 : readV4InGroups 0 ('f' :: 'f' :: 'f' :: 'f' :: ':' :: displayIpv4 v4c) = none := by
      unfold readV4InGroups
      rw [if_pos rfl]
      exact readIpv4_none_of_head _ rfl
    have tg : readGroup 0 ('f' :: 'f' :: 'f' :: 'f' :: ':' :: displayIpv4 v4c) =
        some (65535, ':' :: displayIpv4 v4c) := by
      unfold readGroup
      rw [if_pos rfl]
      exact hnum
    have hB : readGroups 7 0 ('f' :: 'f' :: 'f' :: 'f' :: ':' :: displayIpv4 v4c) =
        ([65535, v4c.o1 * 256 + v4c.o2, v4c.o3 * 256 + v4c.o4], true, []) := by
      unfold readGroups
      simp [tv4, tg, hB1]
    have hv1 : v4c.o1 * 256 + v4c.o2 = s6 := by
      simp only [hv4c]
      omega
    have hv2 : v4c.o3 * 256 + v4c.o4 = s7 := by
      simp only [hv4c]
      omega
    have hrepl : List.replicate 5 (0 : Nat) = [0, 0, 0, 0, 0] := rfl
    have hx : readIpv6
        (':' :: ':' :: 'f' :: 'f' :: 'f' :: 'f' :: ':' :: displayIpv4 v4c) =
        some ([0, 0, 0, 0, 0, 65535, s6, s7], []) := by
      unfold readIpv6
      rw [readGroups_colon_start (':' :: 'f' :: 'f' :: 'f' :: 'f' :: ':' :: displayIpv4 v4c)]
      simp [readGivenChar, hB, hv1, hv2, hrepl]
    unfold parseIpv6
    rw [hx]
  · have hm : Ipv6Addr.toIpv4Mapped ⟨s0, s1, s2, s3, s4, s5, s6, s7⟩ = none := by
      simp only [Ipv6Addr.toIpv4Mapped]
      rw [if_neg hmap]
    rw [displayIpv6_general _ hz hl hm]
    simp only [Ipv6Addr.segments]
    set segs : List Nat := [s0, s1, s2, s3, s4, s5, s6, s7] with hsegs
    obtain ⟨hz1, hz2⟩ := zeroSpan_sound segs
    have hlen8 : segs.length = 8 := by simp [hsegs]
    have hsub : ∀ g ∈ segs, g ≤ 65535 := by
      intro g hg
      exact hseg g (by simpa [hsegs] using hg)
    by_cases hlen2 : 1 < (zeroSpan segs).2
    · rw [if_pos hlen2]
      have hz16 : (zeroSpan segs).1 ≤ 6 := by omega
      have hhead : readGroups 8 0 (fmtSubslice (segs.take (zeroSpan segs).1) ++
          (':' :: ':' :: fmtSubslice (segs.drop ((zeroSpan segs).1 + (zeroSpan segs).2)))) =
          (segs.take (zeroSpan segs).1, false,
            ':' :: ':' :: fmtSubslice (segs.drop ((zeroSpan segs).1 + (zeroSpan segs).2))) := by
        refine readGroups_fmt _ 8 _ (fun g hg => hsub g (List.take_subset _ _ hg)) ?_ ?_ rfl ?_
        · rw [List.length_take]
          omega
        · intro hm2
          simp only [List.mem_cons] at hm2
          rcases hm2 with h | h | h
          · exact absurd h (by decide)
          · exact absurd h (by decide)
          · exact renderGroupsFrom_no_dot true _ h
        · intro r hr
          injection hr with _ h2
          subst h2
          rfl
      have hlentake : (segs.take (zeroSpan segs).1).length = (zeroSpan segs).1 := by
        rw [List.length_take]
        omega
      have htail : readGroups (8 - ((zeroSpan segs).1 + 1)) 0
          (fmtSubslice (segs.drop ((zeroSpan segs).1 + (zeroSpan segs).2))) =
          (segs.drop ((zeroSpan segs).1 + (zeroSpan segs).2), false, []) := by
        refine readGroups_fmt_nil _ _ (fun g hg => hsub g (List.drop_subset _ _ hg)) ?_
        rw [List.length_drop]
        omega
      have hlendrop : (segs.drop ((zeroSpan segs).1 + (zeroSpan segs).2)).length =
          8 - ((zeroSpan segs).1 + (zeroSpan segs).2) := by
        rw [List.length_drop]
        omega
      have hre : segs.take (zeroSpan segs).1 ++
          (List.replicate (zeroSpan segs).2 0 ++
            segs.drop ((zeroSpan segs).1 + (zeroSpan segs).2)) = segs := by
        rw [← hz2, List.drop_take_append_drop, List.take_append_drop]
      have hx : readIpv6 (fmtSubslice (segs.take (zeroSpan segs).1) ++
          (':' :: ':' :: fmtSubslice (segs.drop ((zeroSpan segs).1 + (zeroSpan segs).2)))) =
          some (segs, []) := by
        unfold readIpv6
        rw [hhead]
        have hc1 : readGivenChar ':'
            (':' :: ':' :: fmtSubslice (segs.drop ((zeroSpan segs).1 + (zeroSpan segs).2))) =
            some (':' :: fmtSubslice (segs.drop ((zeroSpan segs).1 + (zeroSpan segs).2))) := rfl
        have hc2 : readGivenChar ':'
            (':' :: fmtSubslice (segs.drop ((zeroSpan segs).1 + (zeroSpan segs).2))) =
            some (fmtSubslice (segs.drop ((zeroSpan segs).1 + (zeroSpan segs).2))) := rfl
        simp only [hlentake]
        rw [if_neg (by omega : ¬(zeroSpan segs).1 = 8)]
        simp only [Bool.false_eq_true, if_false]
        simp only [hc1, hc2, htail, hlendrop]
        have hcnt : 8 - (zeroSpan segs).1 - (8 - ((zeroSpan segs).1 + (zeroSpan segs).2)) =
            (zeroSpan segs).2 := by omega
        rw [hcnt]
        rw [List.append_assoc, hre]
      unfold parseIpv6
      rw [hx]
    · rw [if_neg hlen2]
      have hx : readIpv6 (fmtSubslice segs) = some (segs, []) := by
        unfold readIpv6
        rw [readGroups_fmt_nil segs 8 hsub (by omega)]
        rw [if_pos hlen8]
      unfold parseIpv6
      rw [hx]

/-- C4: the round trip through the wire form is lossless — whenever
`Content::from(t, s)` succeeds with content `c`, reconstructing from
`c.value_to_string()` succeeds and yields a content structurally equal to
`c`. -/
theorem claim_C4_wire_roundtrip (t : RecordType) (s : List Char) (c : Content)
    (h : Content.fromParts t s = some c) :
    Content.fromParts t c.value_to_string = some c := by
  cases t with
  | A =>
    simp only [Content.fromParts] at h ⊢
    cases hp : parseIpv4 s with
    | none => rw [hp] at h; exact Option.noConfusion h
    | some addr =>
      rw [hp] at h
      simp only [Option.map_some', Option.some.injEq] at h
      subst h
      obtain ⟨b1, b2, b3, b4⟩ := parseIpv4_octets_le s addr hp
      simp only [Content.value_to_string]
      rw [parseIpv4_display addr b1 b2 b3 b4]
      rfl
  | Aaaa =>
    simp only [Content.fromParts] at h ⊢
    cases hp : parseIpv6 s with
    | none => rw [hp] at h; exact Option.noConfusion h
    | some addr =>
      rw [hp] at h
      simp only [Option.map_some', Option.some.injEq] at h
      subst h
      have hb := parseIpv6_segments_le s addr hp
      simp only [Content.value_to_string]
      rw [parseIpv6_display addr hb]
      rfl
  | Mx =>
    simp only [Content.fromParts, Option.some.injEq] at h
    subst h
    rfl
  | Cname =>
    simp only [Content.fromParts, Option.some.injEq] at h
    subst h
    rfl
  | Alias =>
    simp only [Content.fromParts, Option.some.injEq] at h
    subst h
    rfl
  | Txt =>
    simp only [Content.fromParts, Option.some.injEq] at h
    subst h
    rfl
  | Ns =>
    simp only [Content.fromParts, Option.some.injEq] at h
    subst h
    rfl
  | Srv =>
    simp only [Content.fromParts, Option.some.injEq] at h
    subst h
    rfl
  | Tlsa =>
    simp only [Content.fromParts, Option.some.injEq] at h
    subst h
    rfl
  | Caa =>
    simp only [Content.fromParts, Option.some.injEq] at h
    subst h
    rfl
  | Https =>
    simp only [Content.fromParts, Option.some.injEq] at h
    subst h
    rfl
  | Svcb =>
    simp only [Content.fromParts, Option.some.injEq] at h
    subst h
    rfl

/-- Witness for C4: both address families at concrete inputs, the
round-trip conjuncts by applying the claim's theorem. -/
theorem claim_C4_wire_roundtrip_witness :
    Content.fromParts .A ("203.0.113.5".toList) = some (.A ⟨203, 0, 113, 5⟩) ∧
    Content.fromParts .A ((Content.A ⟨203, 0, 113, 5⟩).value_to_string) =
      some (.A ⟨203, 0, 113, 5⟩) ∧
    Content.fromParts .Aaaa ("2001:db8::1".toList) =
      some (.Aaaa ⟨8193, 3512, 0, 0, 0, 0, 0, 1⟩) ∧
    Content.fromParts .Aaaa ((Content.Aaaa ⟨8193, 3512, 0, 0, 0, 0, 0, 1⟩).value_to_string) =
      some (.Aaaa ⟨8193, 3512, 0, 0, 0, 0, 0, 1⟩) :=
  ⟨by decide, claim_C4_wire_roundtrip .A ("203.0.113.5".toList) _ (by decide),
   by decide, claim_C4_wire_roundtrip .Aaaa ("2001:db8::1".toList) _ (by decide)⟩

end Hamsando
